import Mathlib

set_option maxRecDepth 8000

namespace Network

/-!
Shallow embedding of the DaMatrix/Network repository sources:
the wallet library (src/wallet/mod.rs), the compute node binary
(src/bin/compute.rs), and the node configuration index handling of the
user, storage and upgrade binaries.  Machine integers (u64) are modelled
as Nat with explicit reduction modulo 2 ^ 64 where the source performs
u64 arithmetic (release-mode wrapping semantics).
-/

/-! ## SHA3-256 (the sha3 crate primitive used by construct_address) -/

def U64 : Nat := 2 ^ 64

/-- Left rotation of a 64-bit lane. -/
def rotl64 (x r : Nat) : Nat :=
  ((x <<< r) % U64) ||| (x >>> (64 - r))

/-- One step of the degree-8 LFSR of FIPS 202 (x^8 + x^6 + x^5 + x^4 + 1):
output bit and next register value. -/
def lfsrStep (r : Nat) : Nat × Nat :=
  (r % 2, if r ≥ 128 then ((r * 2) ^^^ 0x71) % 256 else r * 2)

/-- Build the remaining round constants from the LFSR state: each constant
collects seven LFSR bits at bit positions 2 ^ j - 1. -/
def rcConstAux : Nat → Nat → List Nat
  | 0, _ => []
  | n + 1, r =>
    let step7 : Nat × Nat := (List.range 7).foldl (fun p j =>
      let s := lfsrStep p.2
      (p.1 + s.1 * 2 ^ (2 ^ j - 1), s.2)) (0, r)
    step7.1 :: rcConstAux n step7.2

/-- Keccak round constants, generated per FIPS 202. -/
def keccakRC : List Nat := rcConstAux 24 1

/-- The rho rotation assignments: starting from lane (1,0), step t assigns
offset (t+1)(t+2)/2 mod 64 and moves to lane (y, 2x+3y mod 5). -/
def rhoTableAux : Nat → Nat → Nat → List (Nat × Nat)
  | 0, _, _ => []
  | t + 1, x, y =>
    (x + 5 * y, ((24 - t) * (25 - t) / 2) % 64) :: rhoTableAux t y ((2 * x + 3 * y) % 5)

def rhoAssignments : List (Nat × Nat) := rhoTableAux 24 1 0

/-- Keccak rotation offsets indexed by lane x + 5 * y (lane 0 keeps 0). -/
def keccakRho : List Nat :=
  (List.range 25).map fun i =>
    ((rhoAssignments.filter (fun p => p.1 == i)).map Prod.snd).foldr Nat.add 0

/-- One Keccak-f[1600] round on a 25-lane state. -/
def keccakRound (s : List Nat) (rc : Nat) : List Nat :=
  let c := (List.range 5).map fun x =>
    s.getD x 0 ^^^ s.getD (x + 5) 0 ^^^ s.getD (x + 10) 0 ^^^ s.getD (x + 15) 0 ^^^
      s.getD (x + 20) 0
  let d := (List.range 5).map fun x =>
    c.getD ((x + 4) % 5) 0 ^^^ rotl64 (c.getD ((x + 1) % 5) 0) 1
  let sTheta := (List.range 25).map fun i => s.getD i 0 ^^^ d.getD (i % 5) 0
  let sRho := (List.range 25).map fun i =>
    let xt := i % 5
    let yt := i / 5
    let j := (xt + 3 * yt) % 5 + 5 * xt
    rotl64 (sTheta.getD j 0) (keccakRho.getD j 0)
  let sChi := (List.range 25).map fun i =>
    let xt := i % 5
    let yt := i / 5
    let a := sRho.getD i 0
    let b := sRho.getD ((xt + 1) % 5 + 5 * yt) 0
    let e := sRho.getD ((xt + 2) % 5 + 5 * yt) 0
    a ^^^ ((b ^^^ (U64 - 1)) &&& e)
  (List.range 25).map fun i =>
    if i == 0 then sChi.getD 0 0 ^^^ rc else sChi.getD i 0

/-- The full Keccak-f[1600] permutation. -/
def keccakF (s : List Nat) : List Nat := keccakRC.foldl keccakRound s

/-- Combine up to 8 bytes into one little-endian 64-bit lane. -/
def laneOfBytes (bs : List Nat) : Nat := bs.foldr (fun b acc => acc * 256 + b) 0

/-- Absorb one 136-byte rate block into the state and permute. -/
def absorbBlock (s : List Nat) (block : List Nat) : List Nat :=
  keccakF ((List.range 25).map fun i =>
    s.getD i 0 ^^^ (if i < 17 then laneOfBytes ((block.drop (8 * i)).take 8) else 0))

/-- SHA3 padding (0x06 ... 0x80) for a message of the given length at rate 136. -/
def sha3pad (len : Nat) : List Nat :=
  let r := 136 - len % 136
  if r == 1 then [0x86] else 0x06 :: (List.replicate (r - 2) 0 ++ [0x80])

/-- SHA3-256 of a byte list. -/
def sha3_256 (msg : List Nat) : List Nat :=
  let padded := msg ++ sha3pad msg.length
  let blocks := (List.range (padded.length / 136)).map fun i =>
    ((padded.drop (136 * i)).take 136)
  let final := blocks.foldl absorbBlock (List.replicate 25 0)
  (List.range 32).map fun i => (final.getD (i / 8) 0 >>> (8 * (i % 8))) % 256

/-- Lower-case hex digit. -/
def hexChar (n : Nat) : Char := if n < 10 then Char.ofNat (48 + n) else Char.ofNat (87 + n)

/-- Lower-case hex encoding of a byte list (the hex crate encode). -/
def hexEncode (bs : List Nat) : String :=
  String.mk ((bs.map fun b => [hexChar (b / 16), hexChar (b % 16)]).flatten)

/-- bincode little-endian u64 encoding. -/
def u64le (n : Nat) : List Nat := (List.range 8).map fun i => (n >>> (8 * i)) % 256

/-- bincode serialization of a sodiumoxide PublicKey: u64 length prefix then the bytes. -/
def serializePublicKey (pk : List Nat) : List Nat := u64le pk.length ++ pk

structure PaymentAddress where
  address : String
  net : Nat
deriving DecidableEq, Repr

/-- Embedding of construct_address (src/wallet/mod.rs): double SHA3-256 with the
network byte inserted at the front of the first hash, truncated to 16 bytes,
hex encoded. -/
def construct_address (pub_key : List Nat) (net : Nat) : PaymentAddress :=
  let first_pubkey_bytes := serializePublicKey pub_key
  let first_hash := sha3_256 first_pubkey_bytes
  let second_hash := (sha3_256 (net :: first_hash)).take 16
  { address := hexEncode second_hash, net := net }

/-- The address formula as written in the spec:
hex(SHA3-256(net || SHA3-256(serialize(pub_key)))[:16]). -/
def spec_address (pub_key : List Nat) (net : Nat) : String :=
  hexEncode ((sha3_256 (net :: sha3_256 (serializePublicKey pub_key))).take 16)

/-- The §8 / S1 test vector public key. -/
def testPubKey : List Nat :=
  [196, 234, 50, 92, 76, 102, 62, 4, 231, 81, 211, 133, 33, 164, 134, 52, 44, 68, 174, 18,
   14, 59, 108, 187, 150, 190, 169, 229, 215, 130, 78, 78]

/-! ## u64 arithmetic (TokenAmount wraps a u64; release-mode wrapping) -/

def u64add (x y : Nat) : Nat := (x + y) % U64

def u64sub (x y : Nat) : Nat := (x + U64 - y % U64) % U64

/-! ## Wallet data model (src/wallet/mod.rs) -/

structure OutPoint where
  t_hash : String
  n : Nat
deriving DecidableEq, Repr

/-- Lexicographic strict order on char lists by code point; agrees with the
Rust byte-lexicographic String order on ASCII strings (all map keys are hex
strings). -/
def charListLt : List Char → List Char → Bool
  | _, [] => false
  | [], _ :: _ => true
  | c1 :: r1, c2 :: r2 =>
    if c1.toNat < c2.toNat then true
    else if c2.toNat < c1.toNat then false
    else charListLt r1 r2

/-- Strict order on strings, as char-list order on the data. -/
def strLt (a b : String) : Bool := charListLt a.data b.data

/-- Strict key order on OutPoint matching the derived Rust Ord:
lexicographic by (t_hash, n). -/
def opLt (a b : OutPoint) : Bool :=
  if a.t_hash = b.t_hash then decide (a.n < b.n) else strLt a.t_hash b.t_hash

/-- BTreeMap.get on an association list (first matching key). -/
def mget {κ α : Type} [DecidableEq κ] : List (κ × α) → κ → Option α
  | [], _ => none
  | (k2, v) :: rest, k => if k = k2 then some v else mget rest k

/-- BTreeMap.remove on an association list (first matching key). -/
def mremove {κ α : Type} [DecidableEq κ] : List (κ × α) → κ → List (κ × α)
  | [], _ => []
  | (k2, v) :: rest, k => if k = k2 then rest else (k2, v) :: mremove rest k

/-- BTreeMap.insert on a key-sorted association list: replaces the entry when
the key is present, otherwise inserts in order. -/
def minsert {κ α : Type} [DecidableEq κ] (lt : κ → κ → Bool) (k : κ) (v : α) :
    List (κ × α) → List (κ × α)
  | [] => [(k, v)]
  | (k2, v2) :: rest =>
    if lt k k2 then (k, v) :: (k2, v2) :: rest
    else if k = k2 then (k, v) :: rest
    else (k2, v2) :: minsert lt k v rest

/-- The association list is strictly sorted by key, as a BTreeMap dump is. -/
def msorted {κ α : Type} (lt : κ → κ → Bool) : List (κ × α) → Bool
  | [] => true
  | [_] => true
  | a :: b :: rest => lt a.1 b.1 && msorted lt (b :: rest)

structure TransactionStore where
  address : String
  net : Nat
deriving DecidableEq, Repr

/-- Modelled external primitive: a sodiumoxide key pair entry; keys are byte
lists, opaque to every wallet operation except signing. -/
structure AddressStore where
  public_key : List Nat
  secret_key : List Nat
deriving DecidableEq, Repr

structure FundStore where
  running_total : Nat
  transactions : List (OutPoint × Nat)
deriving DecidableEq, Repr

/-- The persisted wallet database: FUND_KEY entry, ADDRESS_KEY entry, and the
per-OutPoint TransactionStore entries. -/
structure WalletState where
  fund : FundStore
  address_stores : List (String × AddressStore)
  transaction_stores : List (OutPoint × TransactionStore)
deriving DecidableEq, Repr

/-- Modelled external primitive: sodiumoxide sign_detached, kept as the signed
message together with the secret key that signed it. -/
structure Signature where
  message : String
  key : List Nat
deriving DecidableEq, Repr

def signDetached (msg : String) (secret_key : List Nat) : Signature :=
  { message := msg, key := secret_key }

/-- A naom TxIn as built by construct_payment_tx_ins from a TxConstructor. -/
structure TxIn where
  previous_out : OutPoint
  signatures : List Signature
  pub_keys : List (List Nat)
deriving DecidableEq, Repr

/-- Placeholder for the naom Transaction: fetch_inputs_for_payment only ever
stores Transaction::new() in a ReturnPayment and no claim inspects it. -/
inductive Transaction where
  | new
deriving DecidableEq, Repr

structure ReturnPayment where
  tx_in : TxIn
  amount : Nat
  transaction : Transaction
deriving DecidableEq, Repr

/-- A Rust panic: the message, together with the wallet DB state it leaves
behind (a panic aborts before any further write). -/
structure WalletPanic where
  msg : String
  state : WalletState
deriving DecidableEq, Repr

/-- Embedding of WalletDb::construct_tx_in_from_prev_out. -/
def construct_tx_in_from_prev_out (st : WalletState) (tx_hash : OutPoint)
    (remove_from_wallet : Bool) : Except WalletPanic (WalletState × TxIn) :=
  let address_store := st.address_stores
  match mget st.transaction_stores tx_hash with
  | none => .error { msg := "Transaction not present in wallet", state := st }
  | some tx_store =>
    match mget address_store tx_store.address with
    | none => .error { msg := "called Option::unwrap on a None value", state := st }
    | some needed_store =>
      let signature := signDetached tx_hash.t_hash needed_store.secret_key
      let txIn : TxIn :=
        { previous_out := tx_hash
          signatures := [signature]
          pub_keys := [needed_store.public_key] }
      let st2 :=
        if remove_from_wallet then
          { st with
            transaction_stores := mremove st.transaction_stores tx_hash
            address_stores := mremove address_store tx_store.address }
        else st
      .ok (st2, txIn)

/-- Embedding of the main loop of WalletDb::fetch_inputs_for_payment,
iterating the collected tx hashes in map order. -/
def fetchLoop (req : Nat) : List OutPoint → WalletState → FundStore → Nat →
    List TxIn → Option ReturnPayment →
    Except WalletPanic (WalletState × FundStore × List TxIn × Option ReturnPayment)
  | [], st, fund, _, tx_ins, ret => .ok (st, fund, tx_ins, ret)
  | tx_hash :: rest, st, fund, amount_made, tx_ins, ret =>
    match mget fund.transactions tx_hash with
    | none => .error { msg := "called Option::unwrap on a None value", state := st }
    | some current_amount =>
      if amount_made == req then
        .ok (st, fund, tx_ins, ret)
      else if req < current_amount + amount_made then
        let diff := u64sub req amount_made
        let fund2 : FundStore :=
          { fund with running_total := u64sub fund.running_total current_amount }
        match construct_tx_in_from_prev_out st tx_hash false with
        | .error e => .error e
        | .ok (st2, return_tx_in) =>
          let ret2 := some { tx_in := return_tx_in, amount := u64sub current_amount diff,
                             transaction := Transaction.new }
          match construct_tx_in_from_prev_out st2 tx_hash true with
          | .error e => .error e
          | .ok (st3, tx_in) =>
            fetchLoop req rest st3
              { fund2 with transactions := mremove fund2.transactions tx_hash }
              req (tx_ins ++ [tx_in]) ret2
      else
        let fund2 : FundStore :=
          { fund with running_total := u64sub fund.running_total current_amount }
        let made2 := u64add amount_made current_amount
        match construct_tx_in_from_prev_out st tx_hash true with
        | .error e => .error e
        | .ok (st2, tx_in) =>
          fetchLoop req rest st2
            { fund2 with transactions := mremove fund2.transactions tx_hash }
            made2 (tx_ins ++ [tx_in]) ret

/-- Embedding of WalletDb::fetch_inputs_for_payment: checks the running total,
iterates the transactions, and persists the updated fund store at the end.
A panic is an error value carrying the database state it leaves behind. -/
def fetch_inputs_for_payment (st : WalletState) (amount_required : Nat) :
    Except WalletPanic (WalletState × List TxIn × Option ReturnPayment) :=
  let fund_store := st.fund
  if fund_store.running_total < amount_required then
    .error { msg := "Not enough funds available for payment!", state := st }
  else
    let tx_hashes := fund_store.transactions.map Prod.fst
    match fetchLoop amount_required tx_hashes st fund_store 0 [] none with
    | .error e => .error e
    | .ok (st2, fund2, tx_ins, ret) => .ok ({ st2 with fund := fund2 }, tx_ins, ret)

/-- Embedding of WalletDb::save_payment_to_wallet: adds the amount to the
running total and inserts the OutPoint into the transactions map. -/
def save_payment_to_wallet (st : WalletState) (hash : OutPoint) (amount : Nat) :
    WalletState :=
  let fund := st.fund
  { st with fund :=
      { running_total := u64add fund.running_total amount
        transactions := minsert opLt hash amount fund.transactions } }

/-- Sum of the values of a transactions map. -/
def sumVals (m : List (OutPoint × Nat)) : Nat := (m.map Prod.snd).sum

/-- The FundStore invariant from the spec: running_total equals the sum of the
transaction map values. -/
@[reducible] def fundInv (fund : FundStore) : Prop :=
  fund.running_total = sumVals fund.transactions

/-- Modelled from the spec: the user node sends the change of a ReturnPayment
as a transaction output to a freshly generated wallet address (the spec:
"a change output is produced of value sum − amount_required, sent to a freshly
generated wallet address"); the handling lives in the system crate UserNode,
which is not under src. -/
structure TxOut where
  value : Nat
  script_public_key : String
deriving DecidableEq, Repr

/-- Modelled from the spec: the change output built from a ReturnPayment and
the freshly generated wallet address. -/
def changeTxOutForReturnPayment (rp : ReturnPayment) (new_address : String) : TxOut :=
  { value := rp.amount, script_public_key := new_address }

/-! ## Compute node binary (src/bin/compute.rs) -/

/-- The mutable compute node state visible to the binary: its partition list
of miner endpoints. -/
structure ComputeState where
  partition_list : List String
deriving DecidableEq, Repr

/-- One observable step taken by a response handler of the compute main loop.
Flood actions record the recipients they fan out to. -/
inductive ComputeAction where
  | floodRandNum
  | floodList (recipients : List String) (payload : List String)
  | resetPartitionList
  | floodBlock (recipients : List String)
  | sendBlockToStorage
  | floodBlockFound
deriving DecidableEq, Repr

/-- The Response values matched by the compute main loop. -/
inductive ComputeResponse where
  | partitionRequestReceived
  | partitionListFull
  | powReceived
  | txsAdded
  | otherSuccess
  | otherFailure
deriving DecidableEq, Repr

/-- Embedding of the response match of the main request loop in
src/bin/compute.rs.  The flood primitives live in the system crate, which is
not under src; modelled from the spec, each is an async fan-out over the
current partition, read from the partition_list of the node at the moment of
the call and recorded in the emitted action.  On "Partition list is full" the
binary floods the list, then assigns partition_list = Vec::new(), then floods
the block challenge.  On "Received PoW successfully" it sends the block to
storage only when the storage connection succeeded at startup and a current
block exists, then floods the block-found notification. -/
def handleResponse (storage_connected has_current_block : Bool) (st : ComputeState) :
    ComputeResponse → ComputeState × List ComputeAction
  | .partitionRequestReceived => (st, [.floodRandNum])
  | .partitionListFull =>
    let listFlood := ComputeAction.floodList st.partition_list st.partition_list
    let st2 : ComputeState := { partition_list := [] }
    (st2, [listFlood, .resetPartitionList, .floodBlock st2.partition_list])
  | .powReceived =>
    (st, (if storage_connected && has_current_block then [.sendBlockToStorage] else [])
      ++ [.floodBlockFound])
  | _ => (st, [])

def isFloodAction : ComputeAction → Bool
  | .floodList _ _ => true
  | .floodBlock _ => true
  | _ => false

/-- The ordering property asserted by the partition-completion claim: in the
emitted action sequence, no partition flood happens after the partition list
reset (the reset comes only after both floods). -/
def resetOnlyAfterFloods : List ComputeAction → Bool
  | [] => true
  | ComputeAction.resetPartitionList :: rest =>
    rest.all (fun a => !isFloodAction a) && resetOnlyAfterFloods rest
  | _ :: rest => resetOnlyAfterFloods rest

def isStorageSend : ComputeAction → Bool
  | .sendBlockToStorage => true
  | _ => false

def countStorageSends (acts : List ComputeAction) : Nat :=
  acts.countP isStorageSend

def isPowResponse : ComputeResponse → Bool
  | .powReceived => true
  | _ => false

/-- A whole round of the compute main loop: handle each response in arrival
order, threading the node state and concatenating the emitted actions. -/
def runRound (storage_connected has_current_block : Bool) :
    List ComputeResponse → ComputeState → ComputeState × List ComputeAction
  | [], st => (st, [])
  | r :: rest, st =>
    let p := handleResponse storage_connected has_current_block st r
    let q := runRound storage_connected has_current_block rest p.1
    (q.1, p.2 ++ q.2)

/-! ## DB mode index handling (src/bin/user.rs, storage.rs, upgrade.rs) -/

inductive DbMode where
  | Live
  | InMemory
  | Test (idx : Nat)
deriving DecidableEq, Repr

/-- user.rs load_settings: with --index given and a Test entry configured, the
new Test value is index + test_idx. -/
def userEffectiveTestMode (base n : Nat) : DbMode := .Test (n + base)

/-- storage.rs main: with --index given and a Test entry configured, the Test
value is overwritten with the index (Value::new(None, index)); the configured
base is discarded. -/
def storageEffectiveTestMode (base n : Nat) : DbMode :=
  let _ := base
  .Test n

/-- upgrade.rs configuration, single-type branch: DbMode::Test(index + node_index)
where index is the configured base and node_index the --index value. -/
def upgradeEffectiveTestMode (base n : Nat) : DbMode := .Test (base + n)

def NODE_TYPES : List String := ["compute", "storage", "user", "miner"]

/-- The settings table slice that the upgrade all branch reads: the number of
configured nodes and the DB mode of each node type. -/
structure UpgradeSettings where
  numNodes : String → Nat
  dbMode : String → DbMode

def isTestMode : DbMode → Bool
  | .Test _ => true
  | _ => false

/-- The databases pushed for one node type by the type == all branch of
configuration in src/bin/upgrade.rs: one per configured node index not in the
ignore list, and only when the configured mode matches DbMode::Test; any other
mode falls through silently. -/
def upgradeEntriesFor (s : UpgradeSettings) (ignore : List String)
    (node_type : String) : List (String × DbMode) :=
  (List.range (s.numNodes node_type)).filterMap fun node_index =>
    if ignore.contains (node_type ++ "." ++ toString node_index) then none
    else
      match s.dbMode node_type with
      | .Test index => some (node_type, DbMode.Test (index + node_index))
      | _ => none

/-- Embedding of the type == all branch of configuration in src/bin/upgrade.rs:
iterate NODE_TYPES and collect the per-type databases. -/
def allDbModes (s : UpgradeSettings) (ignore : List String) : List (String × DbMode) :=
  (NODE_TYPES.map (upgradeEntriesFor s ignore)).flatten

/-! ## Concrete scenario states (§8 of the spec) -/

def kpA : AddressStore := { public_key := [1], secret_key := [2] }

def kpB : AddressStore := { public_key := [3], secret_key := [4] }

def opH1 : OutPoint := { t_hash := "h1", n := 0 }

def opH2 : OutPoint := { t_hash := "h2", n := 0 }

/-- S2 wallet: two outputs (h1,0) = 3 and (h2,0) = 5. -/
def stS2 : WalletState :=
  { fund := { running_total := 8, transactions := [(opH1, 3), (opH2, 5)] }
    address_stores := [("addrA", kpA), ("addrB", kpB)]
    transaction_stores := [(opH1, { address := "addrA", net := 0 }),
                           (opH2, { address := "addrB", net := 0 })] }

/-- S3 wallet: a single output (h1,0) = 10. -/
def stS3 : WalletState :=
  { fund := { running_total := 10, transactions := [(opH1, 10)] }
    address_stores := [("addrA", kpA)]
    transaction_stores := [(opH1, { address := "addrA", net := 0 })] }

/-- S4 wallet: a single output (h1,0) = 2. -/
def stS4 : WalletState :=
  { fund := { running_total := 2, transactions := [(opH1, 2)] }
    address_stores := [("addrA", kpA)]
    transaction_stores := [(opH1, { address := "addrA", net := 0 })] }

/-- The empty wallet state left after consuming every output. -/
def stEmpty : WalletState :=
  { fund := { running_total := 0, transactions := [] }
    address_stores := []
    transaction_stores := [] }

/-- The TxIn spending (h1,0), signed with the secret key of addrA. -/
def txInH1 : TxIn :=
  { previous_out := opH1
    signatures := [{ message := "h1", key := [2] }]
    pub_keys := [[1]] }

/-- The TxIn spending (h2,0), signed with the secret key of addrB. -/
def txInH2 : TxIn :=
  { previous_out := opH2
    signatures := [{ message := "h2", key := [4] }]
    pub_keys := [[3]] }

/-- The return payment produced by the S3 scenario: change 7. -/
def rpS3 : ReturnPayment :=
  { tx_in := txInH1
    amount := 7
    transaction := Transaction.new }

deriving instance DecidableEq for Except

/-- A compute node state with a two-miner partition. -/
def stPart : ComputeState := { partition_list := ["m1", "m2"] }

/-- Upgrade settings with one node of each type, the storage node configured
with a non-Test DB mode. -/
def sUpg : UpgradeSettings :=
  { numNodes := fun _ => 1
    dbMode := fun nt => if nt = "storage" then DbMode.Live else DbMode.Test 0 }

/-! ## Map and sum lemmas -/

theorem sumVals_cons (e : OutPoint × Nat) (rest : List (OutPoint × Nat)) :
    sumVals (e :: rest) = e.2 + sumVals rest := by
  simp [sumVals]

theorem sumVals_mremove {k : OutPoint} {v : Nat} :
    ∀ {m : List (OutPoint × Nat)}, mget m k = some v →
      sumVals (mremove m k) + v = sumVals m := by
  intro m
  induction m with
  | nil => intro h; simp [mget] at h
  | cons e rest ih =>
    intro h
    obtain ⟨k2, v2⟩ := e
    by_cases hk : k = k2
    · subst hk
      simp [mget] at h
      simp [mremove, sumVals_cons]
      omega
    · simp [mget, hk] at h
      have := ih h
      simp [mremove, hk, sumVals_cons]
      omega

theorem mget_le_sumVals {m : List (OutPoint × Nat)} {k : OutPoint} {v : Nat}
    (h : mget m k = some v) : v ≤ sumVals m := by
  have := sumVals_mremove h
  omega

theorem sumVals_minsert_fresh {k : OutPoint} {a : Nat} :
    ∀ {m : List (OutPoint × Nat)}, mget m k = none →
      sumVals (minsert opLt k a m) = sumVals m + a := by
  intro m
  induction m with
  | nil => intro _; simp [minsert, sumVals]
  | cons e rest ih =>
    intro h
    obtain ⟨k2, v2⟩ := e
    by_cases hk : k = k2
    · subst hk; simp [mget] at h
    · simp [mget, hk] at h
      by_cases hlt : opLt k k2 = true
      · simp [minsert, hlt, sumVals_cons]
        omega
      · simp [minsert, hlt, hk, sumVals_cons, ih h]
        omega

/-! ## OutPoint order lemmas -/

theorem charListLt_irrefl : ∀ (l : List Char), charListLt l l = false := by
  intro l
  induction l with
  | nil => rfl
  | cons c r ih => simp [charListLt, ih]

theorem charListLt_asymm :
    ∀ {xs ys : List Char}, charListLt xs ys = true → charListLt ys xs = false := by
  intro xs
  induction xs with
  | nil =>
    intro ys h
    cases ys with
    | nil => simp [charListLt] at h
    | cons c r => rfl
  | cons c1 r1 ih =>
    intro ys h
    cases ys with
    | nil => simp [charListLt] at h
    | cons c2 r2 =>
      simp only [charListLt] at h ⊢
      by_cases h12 : c1.toNat < c2.toNat
      · simp only [h12, reduceIte]
        have h21 : ¬ c2.toNat < c1.toNat := by omega
        simp [h21, h12]
      · by_cases h21 : c2.toNat < c1.toNat
        · simp [h12, h21] at h
        · simp only [h12, h21, reduceIte] at h ⊢
          exact ih h

theorem charListLt_trans :
    ∀ {xs ys zs : List Char}, charListLt xs ys = true → charListLt ys zs = true →
      charListLt xs zs = true := by
  intro xs
  induction xs with
  | nil =>
    intro ys zs h1 h2
    cases zs with
    | nil =>
      cases ys with
      | nil => simp [charListLt] at h1
      | cons cb rb => simp [charListLt] at h2
    | cons cc rc => rfl
  | cons c1 r1 ih =>
    intro ys zs h1 h2
    cases ys with
    | nil => simp [charListLt] at h1
    | cons c2 r2 =>
      cases zs with
      | nil => simp [charListLt] at h2
      | cons c3 r3 =>
        simp only [charListLt] at h1 h2 ⊢
        by_cases h12 : c1.toNat < c2.toNat <;> by_cases h23 : c2.toNat < c3.toNat
        · have h13 : c1.toNat < c3.toNat := by omega
          simp [h13]
        · by_cases h32 : c3.toNat < c2.toNat
          · simp [h12, h23, h32] at h2
          · have he : c2.toNat = c3.toNat := by omega
            have h13 : c1.toNat < c3.toNat := by omega
            simp [h13]
        · by_cases h21 : c2.toNat < c1.toNat
          · simp [h12, h21] at h1
          · have h13 : c1.toNat < c3.toNat := by omega
            simp [h13]
        · by_cases h21 : c2.toNat < c1.toNat
          · simp [h12, h21] at h1
          · by_cases h32 : c3.toNat < c2.toNat
            · simp [h23, h32] at h2
            · have h13 : ¬ c1.toNat < c3.toNat := by omega
              have h31 : ¬ c3.toNat < c1.toNat := by omega
              simp only [h12, h21, reduceIte] at h1
              simp only [h23, h32, reduceIte] at h2
              simp only [h13, h31, reduceIte]
              exact ih h1 h2

theorem strLt_irrefl (a : String) : strLt a a = false := charListLt_irrefl a.data

theorem strLt_asymm {a b : String} (h : strLt a b = true) : strLt b a = false :=
  charListLt_asymm h

theorem strLt_trans {a b c : String} (h1 : strLt a b = true) (h2 : strLt b c = true) :
    strLt a c = true :=
  charListLt_trans h1 h2

theorem strLt_ne {a b : String} (h : strLt a b = true) : a ≠ b := by
  intro he
  rw [he, strLt_irrefl] at h
  exact absurd h (by simp)

theorem opLt_irrefl (a : OutPoint) : opLt a a = false := by
  simp [opLt]

theorem opLt_asymm {a b : OutPoint} (h : opLt a b = true) : opLt b a = false := by
  by_cases he : a.t_hash = b.t_hash
  · simp only [opLt, he, reduceIte] at h
    simp only [opLt, he.symm, reduceIte]
    simp at h ⊢
    omega
  · simp only [opLt, he, reduceIte] at h
    have he2 : ¬ b.t_hash = a.t_hash := fun x => he x.symm
    simp only [opLt, he2, reduceIte]
    exact strLt_asymm h

theorem opLt_trans {a b c : OutPoint} (h1 : opLt a b = true) (h2 : opLt b c = true) :
    opLt a c = true := by
  by_cases he1 : a.t_hash = b.t_hash <;> by_cases he2 : b.t_hash = c.t_hash
  · have he3 : a.t_hash = c.t_hash := he1.trans he2
    simp only [opLt, he1, he2, he3, reduceIte] at h1 h2 ⊢
    simp at h1 h2 ⊢
    omega
  · have he3 : ¬ a.t_hash = c.t_hash := by rw [he1]; exact he2
    simp only [opLt, he2, he3, reduceIte] at h2 ⊢
    rw [he1]
    exact h2
  · have he3 : ¬ a.t_hash = c.t_hash := by rw [he2] at he1; exact he1
    simp only [opLt, he1, he3, reduceIte] at h1 ⊢
    rw [← he2]
    exact h1
  · simp only [opLt, he1, he2, reduceIte] at h1 h2
    have h3 := strLt_trans h1 h2
    have he3 : ¬ a.t_hash = c.t_hash := by
      intro hx
      rw [hx] at h3
      rw [strLt_irrefl] at h3
      exact absurd h3 (by simp)
    simp only [opLt, he3, reduceIte]
    exact h3

theorem msorted_cons {κ α : Type} {lt : κ → κ → Bool} {e : κ × α} {rest : List (κ × α)}
    (h : msorted lt (e :: rest) = true) : msorted lt rest = true := by
  cases rest with
  | nil => rfl
  | cons b r =>
    simp [msorted] at h
    exact h.2

theorem msorted_head_lt {k : OutPoint} {v : Nat} :
    ∀ {rest : List (OutPoint × Nat)} {k2 : OutPoint} {v2 : Nat},
      msorted opLt ((k2, v2) :: rest) = true → mget rest k = some v →
      opLt k2 k = true := by
  intro rest
  induction rest with
  | nil => intro k2 v2 _ h; simp [mget] at h
  | cons e r2 ih =>
    intro k2 v2 hs h
    obtain ⟨k3, v3⟩ := e
    have hparts : opLt k2 k3 = true ∧ msorted opLt ((k3, v3) :: r2) = true := by
      simpa [msorted] using hs
    by_cases hk : k = k3
    · subst hk; exact hparts.1
    · simp [mget, hk] at h
      exact opLt_trans hparts.1 (ih hparts.2 h)

theorem sumVals_minsert_replace {k : OutPoint} {a v : Nat} :
    ∀ {m : List (OutPoint × Nat)}, msorted opLt m = true → mget m k = some v →
      sumVals (minsert opLt k a m) + v = sumVals m + a := by
  intro m
  induction m with
  | nil => intro _ h; simp [mget] at h
  | cons e rest ih =>
    intro hs h
    obtain ⟨k2, v2⟩ := e
    by_cases hk : k = k2
    · subst hk
      simp [mget] at h
      simp [minsert, opLt_irrefl, sumVals_cons]
      omega
    · simp [mget, hk] at h
      have hlt : opLt k2 k = true := msorted_head_lt hs h
      have hnlt : opLt k k2 = false := opLt_asymm hlt
      have ihr := ih (msorted_cons hs) h
      simp [minsert, hnlt, hk, sumVals_cons]
      omega

theorem mget_minsert_self {k : OutPoint} {a : Nat} :
    ∀ (m : List (OutPoint × Nat)), mget (minsert opLt k a m) k = some a := by
  intro m
  induction m with
  | nil => simp [minsert, mget]
  | cons e rest ih =>
    obtain ⟨k2, v2⟩ := e
    by_cases hlt : opLt k k2 = true
    · simp [minsert, hlt, mget]
    · by_cases hk : k = k2
      · simp [minsert, hlt, hk, mget, opLt_irrefl]
      · simp [minsert, hlt, hk, mget, ih]

/-! ## u64 lemmas -/

theorem U64_eq : U64 = 18446744073709551616 := by norm_num [U64]

theorem u64add_eq {x y : Nat} (h : x + y < U64) : u64add x y = x + y := by
  rw [U64_eq] at h
  simp only [u64add, U64_eq]
  omega

theorem u64sub_eq {x y : Nat} (h1 : y ≤ x) (h2 : x < U64) : u64sub x y = x - y := by
  rw [U64_eq] at h2
  simp only [u64sub, U64_eq]
  omega

/-! ## fetch_inputs_for_payment loop lemmas -/

theorem fetchLoop_inv {req : Nat} :
    ∀ (hashes : List OutPoint) (st : WalletState) (fund : FundStore) (made : Nat)
      (txs : List TxIn) (ret : Option ReturnPayment)
      {st2 : WalletState} {fund2 : FundStore} {txs2 : List TxIn}
      {ret2 : Option ReturnPayment},
      fund.running_total = sumVals fund.transactions →
      fund.running_total < U64 →
      fetchLoop req hashes st fund made txs ret = .ok (st2, fund2, txs2, ret2) →
      fund2.running_total = sumVals fund2.transactions ∧ fund2.running_total < U64 := by
  intro hashes
  induction hashes with
  | nil =>
    intro st fund made txs ret st2 fund2 txs2 ret2 hinv hlt hok
    simp [fetchLoop] at hok
    obtain ⟨-, h2, -, -⟩ := hok
    rw [← h2]
    exact ⟨hinv, hlt⟩
  | cons tx_hash rest ih =>
    intro st fund made txs ret st2 fund2 txs2 ret2 hinv hlt hok
    cases hget : mget fund.transactions tx_hash with
    | none => simp [fetchLoop, hget] at hok
    | some cur =>
      have hcur : cur ≤ sumVals fund.transactions := mget_le_sumVals hget
      have hrem := sumVals_mremove hget
      have hsub : u64sub fund.running_total cur = fund.running_total - cur :=
        u64sub_eq (by omega) hlt
      have hinv2 : (u64sub fund.running_total cur) =
          sumVals (mremove fund.transactions tx_hash) := by
        rw [hsub]; omega
      have hlt2 : (u64sub fund.running_total cur) < U64 := by
        rw [hsub]; omega
      by_cases hmade : (made == req) = true
      · simp [fetchLoop, hget, hmade] at hok
        obtain ⟨-, h2, -, -⟩ := hok
        rw [← h2]
        exact ⟨hinv, hlt⟩
      · have hmadef : (made == req) = false := by
          simpa using hmade
        by_cases hover : req < cur + made
        · cases hc1 : construct_tx_in_from_prev_out st tx_hash false with
          | error e => simp [fetchLoop, hget, hmadef, hover, hc1] at hok
          | ok p =>
            obtain ⟨stA, rtx⟩ := p
            cases hc2 : construct_tx_in_from_prev_out stA tx_hash true with
            | error e => simp [fetchLoop, hget, hmadef, hover, hc1, hc2] at hok
            | ok q =>
              obtain ⟨stB, txi⟩ := q
              simp only [fetchLoop, hget, hmadef, hover, hc1, hc2, if_true, if_false,
                Bool.false_eq_true, if_pos, reduceIte] at hok
              exact ih _ _ _ _ _ hinv2 hlt2 hok
        · cases hc1 : construct_tx_in_from_prev_out st tx_hash true with
          | error e => simp [fetchLoop, hget, hmadef, hover, hc1] at hok
          | ok p =>
            obtain ⟨stA, txi⟩ := p
            simp only [fetchLoop, hget, hmadef, hover, hc1, Bool.false_eq_true,
              reduceIte] at hok
            exact ih _ _ _ _ _ hinv2 hlt2 hok

theorem fetchLoop_done {req : Nat} :
    ∀ (hashes : List OutPoint) (st : WalletState) (fund : FundStore)
      (txs : List TxIn) (ret : Option ReturnPayment)
      {st2 : WalletState} {fund2 : FundStore} {txs2 : List TxIn}
      {ret2 : Option ReturnPayment},
      fetchLoop req hashes st fund req txs ret = .ok (st2, fund2, txs2, ret2) →
      fund2 = fund ∧ ret2 = ret := by
  intro hashes st fund txs ret st2 fund2 txs2 ret2 hok
  cases hashes with
  | nil =>
    simp [fetchLoop] at hok
    obtain ⟨-, h2, -, h4⟩ := hok
    exact ⟨h2.symm, h4.symm⟩
  | cons tx_hash rest =>
    cases hget : mget fund.transactions tx_hash with
    | none => simp [fetchLoop, hget] at hok
    | some cur =>
      simp [fetchLoop, hget] at hok
      obtain ⟨-, h2, -, h4⟩ := hok
      exact ⟨h2.symm, h4.symm⟩

theorem fetchLoop_change {req : Nat} (hreq : req < U64) :
    ∀ (hashes : List OutPoint) (st : WalletState) (fund : FundStore) (made : Nat)
      (txs : List TxIn)
      {st2 : WalletState} {fund2 : FundStore} {txs2 : List TxIn} {rp : ReturnPayment},
      made ≤ req → sumVals fund.transactions < U64 →
      fetchLoop req hashes st fund made txs none = .ok (st2, fund2, txs2, some rp) →
      rp.amount + req + sumVals fund2.transactions = made + sumVals fund.transactions := by
  intro hashes
  induction hashes with
  | nil =>
    intro st fund made txs st2 fund2 txs2 rp hmr hsum hok
    simp [fetchLoop] at hok
  | cons tx_hash rest ih =>
    intro st fund made txs st2 fund2 txs2 rp hmr hsum hok
    cases hget : mget fund.transactions tx_hash with
    | none => simp [fetchLoop, hget] at hok
    | some cur =>
      have hcur : cur ≤ sumVals fund.transactions := mget_le_sumVals hget
      have hrem := sumVals_mremove hget
      by_cases hmade : (made == req) = true
      · simp [fetchLoop, hget, hmade] at hok
      · have hmadef : (made == req) = false := by
          simpa using hmade
        have hne : made ≠ req := by
          simpa using hmadef
        by_cases hover : req < cur + made
        · cases hc1 : construct_tx_in_from_prev_out st tx_hash false with
          | error e => simp [fetchLoop, hget, hmadef, hover, hc1] at hok
          | ok p =>
            obtain ⟨stA, rtx⟩ := p
            cases hc2 : construct_tx_in_from_prev_out stA tx_hash true with
            | error e => simp [fetchLoop, hget, hmadef, hover, hc1, hc2] at hok
            | ok q =>
              obtain ⟨stB, txi⟩ := q
              simp only [fetchLoop, hget, hmadef, hover, hc1, hc2, Bool.false_eq_true,
                reduceIte] at hok
              have hdone := fetchLoop_done _ _ _ _ _ hok
              obtain ⟨hf, hr⟩ := hdone
              have hd1 : u64sub req made = req - made := u64sub_eq (by omega) hreq
              have hcl : cur < U64 := by omega
              have hd2 : u64sub cur (u64sub req made) = cur - (req - made) := by
                rw [hd1]
                exact u64sub_eq (by omega) hcl
              have hr2 : rp =
                  ReturnPayment.mk rtx (u64sub cur (u64sub req made)) Transaction.new :=
                Option.some.inj hr
              have hrp : rp.amount = cur - (req - made) := by
                rw [hr2]
                exact hd2
              have hf2 : sumVals fund2.transactions =
                  sumVals (mremove fund.transactions tx_hash) := by
                rw [hf]
              rw [hrp, hf2]
              omega
        · cases hc1 : construct_tx_in_from_prev_out st tx_hash true with
          | error e => simp [fetchLoop, hget, hmadef, hover, hc1] at hok
          | ok p =>
            obtain ⟨stA, txi⟩ := p
            simp only [fetchLoop, hget, hmadef, hover, hc1, Bool.false_eq_true,
              reduceIte] at hok
            have hadd : u64add made cur = made + cur := u64add_eq (by omega)
            rw [hadd] at hok
            have hih : rp.amount + req + sumVals fund2.transactions =
                (made + cur) + sumVals (mremove fund.transactions tx_hash) :=
              ih _ _ _ _ (show made + cur ≤ req by omega)
                (show sumVals (mremove fund.transactions tx_hash) < U64 by omega) hok
            omega

theorem fetchLoop_nochange {req : Nat} :
    ∀ (hashes : List OutPoint) (st : WalletState) (fund : FundStore) (made : Nat)
      (txs : List TxIn)
      {st2 : WalletState} {fund2 : FundStore} {txs2 : List TxIn},
      req < U64 → made ≤ req → sumVals fund.transactions < U64 →
      fetchLoop req hashes st fund made txs none = .ok (st2, fund2, txs2, none) →
      sumVals fund.transactions + made ≤ sumVals fund2.transactions + req := by
  intro hashes
  induction hashes with
  | nil =>
    intro st fund made txs st2 fund2 txs2 hreq hmr hsum hok
    simp [fetchLoop] at hok
    obtain ⟨-, h2, -, -⟩ := hok
    rw [← h2]
    omega
  | cons tx_hash rest ih =>
    intro st fund made txs st2 fund2 txs2 hreq hmr hsum hok
    cases hget : mget fund.transactions tx_hash with
    | none => simp [fetchLoop, hget] at hok
    | some cur =>
      have hcur : cur ≤ sumVals fund.transactions := mget_le_sumVals hget
      have hrem := sumVals_mremove hget
      by_cases hmade : (made == req) = true
      · simp [fetchLoop, hget, hmade] at hok
        obtain ⟨-, h2, -, -⟩ := hok
        rw [← h2]
        omega
      · have hmadef : (made == req) = false := by
          simpa using hmade
        by_cases hover : req < cur + made
        · cases hc1 : construct_tx_in_from_prev_out st tx_hash false with
          | error e => simp [fetchLoop, hget, hmadef, hover, hc1] at hok
          | ok p =>
            obtain ⟨stA, rtx⟩ := p
            cases hc2 : construct_tx_in_from_prev_out stA tx_hash true with
            | error e => simp [fetchLoop, hget, hmadef, hover, hc1, hc2] at hok
            | ok q =>
              obtain ⟨stB, txi⟩ := q
              simp only [fetchLoop, hget, hmadef, hover, hc1, hc2, Bool.false_eq_true,
                reduceIte] at hok
              have hdone := fetchLoop_done _ _ _ _ _ hok
              simp at hdone
        · cases hc1 : construct_tx_in_from_prev_out st tx_hash true with
          | error e => simp [fetchLoop, hget, hmadef, hover, hc1] at hok
          | ok p =>
            obtain ⟨stA, txi⟩ := p
            simp only [fetchLoop, hget, hmadef, hover, hc1, Bool.false_eq_true,
              reduceIte] at hok
            have hadd : u64add made cur = made + cur := u64add_eq (by omega)
            rw [hadd] at hok
            have hih : sumVals (mremove fund.transactions tx_hash) + (made + cur) ≤
                sumVals fund2.transactions + req :=
              ih _ _ _ _ hreq (show made + cur ≤ req by omega)
                (show sumVals (mremove fund.transactions tx_hash) < U64 by omega) hok
            omega

/-! ## Compute loop lemmas -/

theorem countStorageSends_append (a b : List ComputeAction) :
    countStorageSends (a ++ b) = countStorageSends a + countStorageSends b := by
  simp [countStorageSends, List.countP_append]

theorem countStorageSends_handle (sc hb : Bool) (st : ComputeState) (r : ComputeResponse) :
    countStorageSends (handleResponse sc hb st r).2 ≤
      (if isPowResponse r = true then 1 else 0) := by
  cases r with
  | powReceived =>
    cases sc <;> cases hb <;>
      simp [handleResponse, isPowResponse, countStorageSends, List.countP_cons,
        isStorageSend]
  | partitionRequestReceived =>
    simp [handleResponse, isPowResponse, countStorageSends, List.countP_cons, isStorageSend]
  | partitionListFull =>
    simp [handleResponse, isPowResponse, countStorageSends, List.countP_cons, isStorageSend]
  | txsAdded =>
    simp [handleResponse, isPowResponse, countStorageSends, List.countP_cons, isStorageSend]
  | otherSuccess =>
    simp [handleResponse, isPowResponse, countStorageSends, List.countP_cons, isStorageSend]
  | otherFailure =>
    simp [handleResponse, isPowResponse, countStorageSends, List.countP_cons, isStorageSend]

theorem runRound_sends_le (sc hb : Bool) :
    ∀ (responses : List ComputeResponse) (st : ComputeState),
      countStorageSends (runRound sc hb responses st).2 ≤
        responses.countP isPowResponse := by
  intro responses
  induction responses with
  | nil => intro st; simp [runRound, countStorageSends]
  | cons r rest ih =>
    intro st
    simp only [runRound, List.countP_cons]
    rw [countStorageSends_append]
    have h1 := countStorageSends_handle sc hb st r
    have h2 := ih (handleResponse sc hb st r).1
    by_cases hp : isPowResponse r = true
    · simp only [hp, if_true, reduceIte] at h1 ⊢
      omega
    · have hpf : isPowResponse r = false := by
        simpa using hp
      simp only [hpf, Bool.false_eq_true, reduceIte] at h1 ⊢
      omega

/-! ## Upgrade enumeration lemmas -/

theorem mem_upgradeEntriesFor {s : UpgradeSettings} {ignore : List String}
    {node_type : String} {e : String × DbMode}
    (he : e ∈ upgradeEntriesFor s ignore node_type) :
    e.1 = node_type ∧ isTestMode e.2 = true ∧ isTestMode (s.dbMode node_type) = true := by
  simp only [upgradeEntriesFor, List.mem_filterMap, List.mem_range] at he
  obtain ⟨i, hi, hf⟩ := he
  split at hf
  · exact absurd hf (by simp)
  · cases hd : s.dbMode node_type with
    | Test idx =>
      rw [hd] at hf
      simp only [Option.some.injEq] at hf
      rw [← hf]
      exact ⟨rfl, rfl, by simp [isTestMode, hd]⟩
    | Live => rw [hd] at hf; simp at hf
    | InMemory => rw [hd] at hf; simp at hf

theorem filter_upgradeEntriesFor {s : UpgradeSettings} {ignore : List String}
    {nt node_type : String} (h : isTestMode (s.dbMode nt) = false) :
    (upgradeEntriesFor s ignore node_type).filter (fun e => e.1 == nt) = [] := by
  rw [List.filter_eq_nil_iff]
  intro e he
  have hm := mem_upgradeEntriesFor he
  simp only [beq_iff_eq]
  intro heq
  have hnt : node_type = nt := by rw [← hm.1, heq]
  have h2 := hm.2.2
  rw [hnt, h] at h2
  exact absurd h2 (by simp)

/-! ## Claim theorems -/

/-- Claim C1 (code divergence record): on the S4 wallet, whose running total 2
is strictly below the requested amount 5, fetch_inputs_for_payment does not
return an InsufficientFunds error value but panics with the message
"Not enough funds available for payment!", leaving the persisted wallet state,
its FundStore included, exactly as it was. -/
theorem claim_C1 :
    fetch_inputs_for_payment stS4 5 =
      .error { msg := "Not enough funds available for payment!", state := stS4 } ∧
    stS4.fund.running_total < 5 := by
  decide

/-- Claim C2: for every public key and network byte, construct_address returns
hex(SHA3-256(net || SHA3-256(serialize(pub_key)))[:16]); for the S1 test vector
public key and net 0 it returns "fd86f2230f4fd5bfd9cd882732792279" of
length 32. -/
theorem claim_C2 :
    (∀ (pk : List Nat) (net : Nat),
      construct_address pk net = { address := spec_address pk net, net := net }) ∧
    construct_address testPubKey 0 =
      { address := "fd86f2230f4fd5bfd9cd882732792279", net := 0 } ∧
    (construct_address testPubKey 0).address.length = 32 := by
  refine ⟨fun pk net => rfl, ?_⟩
  have h : construct_address testPubKey 0 =
      { address := "fd86f2230f4fd5bfd9cd882732792279", net := 0 } := by decide
  refine ⟨h, ?_⟩
  rw [h]
  rfl

/-- Claim C3: on the S2 wallet holding exactly (h1,0) = 3 and (h2,0) = 5, a
payment of 8 consumes both outputs in ascending OutPoint order, returns two
TxIns and no return payment, and persists a FundStore with running total 0 and
an empty transactions map. -/
theorem claim_C3 :
    fetch_inputs_for_payment stS2 8 = .ok (stEmpty, [txInH1, txInH2], none) ∧
    opLt opH1 opH2 = true := by
  decide

/-- Claim C4: whenever fetch_inputs_for_payment returns a return payment, its
amount is the sum of the consumed output values minus the requested amount
(and when it returns none the consumed sum never strictly exceeds the
request); on the S3 wallet holding (h1,0) = 10, a payment of 3 returns one
TxIn, a return payment of 7, removes the consumed address entry, and the
change is sent as an output of value 7 to the freshly generated wallet
address. -/
theorem claim_C4 :
    (∀ (st : WalletState) (req : Nat) (st2 : WalletState) (txs : List TxIn)
      (rp : ReturnPayment),
      req < U64 → sumVals st.fund.transactions < U64 →
      fetch_inputs_for_payment st req = .ok (st2, txs, some rp) →
      rp.amount + req + sumVals st2.fund.transactions = sumVals st.fund.transactions) ∧
    (∀ (st : WalletState) (req : Nat) (st2 : WalletState) (txs : List TxIn),
      req < U64 → sumVals st.fund.transactions < U64 →
      fetch_inputs_for_payment st req = .ok (st2, txs, none) →
      sumVals st.fund.transactions ≤ sumVals st2.fund.transactions + req) ∧
    (fetch_inputs_for_payment stS3 3 = .ok (stEmpty, [txInH1], some rpS3) ∧
     changeTxOutForReturnPayment rpS3 "new_change_address" =
       { value := 7, script_public_key := "new_change_address" }) := by
  refine ⟨?_, ?_, by decide⟩
  · intro st req st2 txs rp hreq hsum hok
    simp only [fetch_inputs_for_payment] at hok
    by_cases hin : st.fund.running_total < req
    · simp [hin] at hok
    · simp only [hin, reduceIte] at hok
      cases hl : fetchLoop req (List.map Prod.fst st.fund.transactions) st st.fund 0 []
          none with
      | error e => rw [hl] at hok; simp at hok
      | ok r =>
        obtain ⟨stA, fundA, txsA, retA⟩ := r
        rw [hl] at hok
        simp only [Except.ok.injEq, Prod.mk.injEq] at hok
        obtain ⟨h1, h2, h3⟩ := hok
        subst h3
        have hc := fetchLoop_change hreq _ st st.fund 0 [] (Nat.zero_le req) hsum hl
        have hs2 : sumVals st2.fund.transactions = sumVals fundA.transactions := by
          rw [← h1]
        omega
  · intro st req st2 txs hreq hsum hok
    simp only [fetch_inputs_for_payment] at hok
    by_cases hin : st.fund.running_total < req
    · simp [hin] at hok
    · simp only [hin, reduceIte] at hok
      cases hl : fetchLoop req (List.map Prod.fst st.fund.transactions) st st.fund 0 []
          none with
      | error e => rw [hl] at hok; simp at hok
      | ok r =>
        obtain ⟨stA, fundA, txsA, retA⟩ := r
        rw [hl] at hok
        simp only [Except.ok.injEq, Prod.mk.injEq] at hok
        obtain ⟨h1, h2, h3⟩ := hok
        subst h3
        have hc := fetchLoop_nochange _ st st.fund 0 [] hreq (Nat.zero_le req) hsum hl
        have hs2 : sumVals st2.fund.transactions = sumVals fundA.transactions := by
          rw [← h1]
        omega

/-- Claim C4 witness: on the S3 wallet, the general change equation
instantiates to 7 + 3 + 0 = 10. -/
theorem claim_C4_witness :
    rpS3.amount + 3 + sumVals stEmpty.fund.transactions = sumVals stS3.fund.transactions :=
  claim_C4.1 stS3 3 stEmpty [txInH1] rpS3 (by decide) (by decide) (by decide)

/-- Claim C5 (amended): the FundStore invariant running_total = sum of the
transactions map values is preserved across the persist boundary by
fetch_inputs_for_payment, and by save_payment_to_wallet when the saved
OutPoint is not already present in the map; a duplicate OutPoint breaks it. -/
theorem claim_C5 :
    (∀ (st : WalletState) (hash : OutPoint) (amount : Nat),
      fundInv st.fund → mget st.fund.transactions hash = none →
      st.fund.running_total + amount < U64 →
      fundInv (save_payment_to_wallet st hash amount).fund) ∧
    (∀ (st : WalletState) (req : Nat)
      (out : WalletState × List TxIn × Option ReturnPayment),
      fundInv st.fund → st.fund.running_total < U64 →
      fetch_inputs_for_payment st req = .ok out →
      fundInv out.1.fund) := by
  constructor
  · intro st hash amount hinv hfresh hlt
    simp only [save_payment_to_wallet, fundInv]
    rw [u64add_eq hlt, sumVals_minsert_fresh hfresh]
    simp only [fundInv] at hinv
    omega
  · intro st req out hinv hlt hok
    obtain ⟨o1, o2, o3⟩ := out
    simp only [fetch_inputs_for_payment] at hok
    by_cases hin : st.fund.running_total < req
    · simp [hin] at hok
    · simp only [hin, reduceIte] at hok
      cases hl : fetchLoop req (List.map Prod.fst st.fund.transactions) st st.fund 0 []
          none with
      | error e => rw [hl] at hok; simp at hok
      | ok r =>
        obtain ⟨stA, fundA, txsA, retA⟩ := r
        rw [hl] at hok
        simp only [Except.ok.injEq, Prod.mk.injEq] at hok
        obtain ⟨h1, -, -⟩ := hok
        have hres := fetchLoop_inv _ _ _ _ _ _ hinv hlt hl
        have ho : o1.fund = fundA := by rw [← h1]
        simp only [fundInv]
        rw [ho]
        exact hres.1

/-- Claim C5 witness: saving a payment with a fresh OutPoint to the S3 wallet
preserves the invariant, and a successful fetch on the S2 wallet preserves
it. -/
theorem claim_C5_witness :
    fundInv (save_payment_to_wallet stS3 opH2 5).fund ∧
    fundInv (stEmpty, ([txInH1, txInH2] : List TxIn),
      (none : Option ReturnPayment)).1.fund :=
  ⟨claim_C5.1 stS3 opH2 5 (by decide) (by decide) (by decide),
   claim_C5.2 stS2 8 (stEmpty, [txInH1, txInH2], none) (by decide) (by decide) (by decide)⟩

/-- Claim C5 counterexample: the claim as stated fails, because
save_payment_to_wallet on an OutPoint already present breaks the invariant:
the S4 wallet satisfies it, and re-saving (h1,0) with amount 3 yields running
total 5 against a map sum of 3. -/
theorem claim_C5_counterexample :
    fundInv stS4.fund ∧ ¬ fundInv (save_payment_to_wallet stS4 opH1 3).fund := by
  decide

/-- Claim C6 (amended): when the partition list is full, the handler floods
the complete partition list to every member, then immediately resets
partition_list to empty, and only then performs the block challenge flood,
whose fan-out over the current partition_list therefore has no recipients;
the list is empty before further requests are handled. -/
theorem claim_C6 :
    ∀ (sc hb : Bool) (st : ComputeState),
      handleResponse sc hb st .partitionListFull =
        ({ partition_list := [] },
         [.floodList st.partition_list st.partition_list, .resetPartitionList,
          .floodBlock []]) := by
  intro sc hb st
  rfl

/-- Claim C6 counterexample: with the two-miner partition, the emitted action
sequence resets the partition list before the block challenge flood, so the
reset is not after both floods as the claim states. -/
theorem claim_C6_counterexample :
    resetOnlyAfterFloods (handleResponse true true stPart .partitionListFull).2 = false ∧
    stPart.partition_list ≠ [] := by
  decide

/-- Claim C7 (amended): when the storage connection succeeded and a current
block exists, the PoW-success handler sends the block to storage exactly once
and then floods the block-found notification; in every case it sends at most
once per handler run, and a round whose responses contain at most one accepted
PoW sends at most one block to storage. -/
theorem claim_C7 :
    (∀ (sc hb : Bool) (st : ComputeState),
      handleResponse true true st .powReceived =
        (st, [.sendBlockToStorage, .floodBlockFound]) ∧
      countStorageSends (handleResponse sc hb st .powReceived).2 ≤ 1) ∧
    (∀ (sc hb : Bool) (st : ComputeState) (responses : List ComputeResponse),
      responses.countP isPowResponse ≤ 1 →
      countStorageSends (runRound sc hb responses st).2 ≤ 1) := by
  constructor
  · intro sc hb st
    refine ⟨rfl, ?_⟩
    cases sc <;> cases hb <;>
      simp [handleResponse, countStorageSends, List.countP_cons, isStorageSend]
  · intro sc hb st responses h
    have := runRound_sends_le sc hb responses st
    omega

/-- Claim C7 witness: a round with one partition-full response and one
accepted PoW sends at most one block to storage. -/
theorem claim_C7_witness :
    countStorageSends (runRound true true [.partitionListFull, .powReceived] stPart).2 ≤ 1 :=
  claim_C7.2 true true stPart [.partitionListFull, .powReceived] (by decide)

/-- Claim C7 counterexample: when the storage connection failed at startup,
the handler for an accepted PoW sends nothing to storage (the claim states
exactly one send) and still floods the block-found notification. -/
theorem claim_C7_counterexample :
    countStorageSends (handleResponse false true stPart .powReceived).2 = 0 ∧
    (handleResponse false true stPart .powReceived).2 = [.floodBlockFound] := by
  decide

/-- Claim C8 (amended): the user binary and the upgrade binary offset the
configured Test base additively by the node index; the storage binary instead
overwrites the configured base with the index, so its effective mode is
Test(n), which agrees with the additive rule only when the base is 0. -/
theorem claim_C8 :
    ∀ (base n : Nat),
      userEffectiveTestMode base n = DbMode.Test (base + n) ∧
      upgradeEffectiveTestMode base n = DbMode.Test (base + n) ∧
      storageEffectiveTestMode base n = DbMode.Test n ∧
      userEffectiveTestMode 1000 1 = DbMode.Test 1001 := by
  intro base n
  refine ⟨?_, rfl, rfl, by decide⟩
  simp [userEffectiveTestMode, Nat.add_comm]

/-- Claim C8 counterexample: for a storage node configured with Test base 5
and index 2, the effective mode is Test 2, not the Test 7 the additive claim
requires. -/
theorem claim_C8_counterexample :
    storageEffectiveTestMode 5 2 = DbMode.Test 2 ∧
    storageEffectiveTestMode 5 2 ≠ DbMode.Test (5 + 2) := by
  decide

/-- Claim C9: saving a payment whose OutPoint is already present with amount
a_old replaces the map entry with the new amount but still adds the full new
amount to the running total, which afterwards exceeds the sum of the map
values by exactly a_old. -/
theorem claim_C9 :
    ∀ (st : WalletState) (hash : OutPoint) (a_new a_old : Nat),
      msorted opLt st.fund.transactions = true →
      fundInv st.fund →
      mget st.fund.transactions hash = some a_old →
      st.fund.running_total + a_new < U64 →
      mget (save_payment_to_wallet st hash a_new).fund.transactions hash = some a_new ∧
      (save_payment_to_wallet st hash a_new).fund.running_total =
        sumVals (save_payment_to_wallet st hash a_new).fund.transactions + a_old := by
  intro st hash a_new a_old hsort hinv hold hlt
  constructor
  · simp only [save_payment_to_wallet]
    exact mget_minsert_self _
  · simp only [save_payment_to_wallet]
    rw [u64add_eq hlt]
    have := sumVals_minsert_replace (a := a_new) hsort hold
    simp only [fundInv] at hinv
    omega

/-- Claim C9 witness: re-saving (h1,0) with amount 3 on the S4 wallet leaves
the entry at 3 and a running total of 5 = 3 + 2. -/
theorem claim_C9_witness :
    mget (save_payment_to_wallet stS4 opH1 3).fund.transactions opH1 = some 3 ∧
    (save_payment_to_wallet stS4 opH1 3).fund.running_total =
      sumVals (save_payment_to_wallet stS4 opH1 3).fund.transactions + 2 :=
  claim_C9 stS4 opH1 3 2 (by decide) (by decide) (by decide) (by decide)

/-- Claim C10: in the upgrade binary's all branch, a node type whose
configured DB mode is not of the Test form contributes no database entry (its
entries filter to the empty list) and no error value: every enumerated entry
carries a Test mode. -/
theorem claim_C10 :
    ∀ (s : UpgradeSettings) (ignore : List String) (nt : String),
      isTestMode (s.dbMode nt) = false →
      (allDbModes s ignore).filter (fun e => e.1 == nt) = [] ∧
      ∀ e ∈ allDbModes s ignore, isTestMode e.2 = true := by
  intro s ignore nt h
  constructor
  · simp only [allDbModes, NODE_TYPES, List.map_cons, List.map_nil, List.flatten_cons,
      List.flatten_nil, List.filter_append, List.append_nil]
    rw [filter_upgradeEntriesFor h, filter_upgradeEntriesFor h,
      filter_upgradeEntriesFor h, filter_upgradeEntriesFor h]
    rfl
  · intro e he
    simp only [allDbModes, List.mem_flatten, List.mem_map] at he
    obtain ⟨l, ⟨nt2, -, hl⟩, hel⟩ := he
    rw [← hl] at hel
    exact (mem_upgradeEntriesFor hel).2.1

/-- Claim C10 witness: with a storage node configured Live among otherwise
Test-mode nodes, the all branch enumerates no storage database and only Test
modes. -/
theorem claim_C10_witness :
    (allDbModes sUpg []).filter (fun e => e.1 == "storage") = [] ∧
    ∀ e ∈ allDbModes sUpg [], isTestMode e.2 = true :=
  claim_C10 sUpg [] "storage" (by decide)

end Network
